import Mathlib

/-!
Verification of the typed-lua lexical front end.

The data model (spans, token kinds, tokens, template parts) and the
keyword functions are translated from
`crates/typedlua-core/src/lexer/token.rs`.  The scanner itself
(`next_token` and the tokenize loop) is not present in the available
sources, so it is modelled from the specification (see the doc comments
starting with `Modelled from the spec:`).  Machine strings are modelled
as `String`/`List Char`; offsets, lines and columns as `Nat`.
-/

namespace TypedLua

/-- Source span: absolute start offset, absolute end offset, start line,
start column.  The `end` field of the Rust struct is named `stop` here
because `end` is reserved in Lean.  Modelled from the spec: the struct
itself lives in `span.rs`, which is not among the available sources; the
spec fixes its fields as start offset, end offset, line and column. -/
structure Span where
  start : Nat
  stop : Nat
  line : Nat
  column : Nat
deriving DecidableEq, Repr

/-- `Span::new(start, end, line, column)`. -/
def Span.new (start stop line column : Nat) : Span :=
  ⟨start, stop, line, column⟩

mutual

/-- Token kind representing different types of lexical elements
(the `TokenKind` enum of `token.rs`, all variants in source order). -/
inductive TokenKind where
  | Const
  | Local
  | Function
  | Return
  | If
  | Elseif
  | Else
  | Then
  | End
  | While
  | Do
  | For
  | In
  | Break
  | Continue
  | Repeat
  | Until
  | And
  | Or
  | Not
  | True
  | False
  | Nil
  | Interface
  | Type
  | Enum
  | Export
  | Import
  | From
  | As
  | Match
  | When
  | Class
  | Extends
  | Implements
  | Public
  | Private
  | Protected
  | Static
  | Abstract
  | Readonly
  | Identifier (s : String)
  | Number (s : String)
  | String (s : String)
  | TemplateString (parts : List TemplatePart)
  | Plus
  | Minus
  | Star
  | Slash
  | Percent
  | Caret
  | Hash
  | Ampersand
  | Pipe
  | Tilde
  | LessThan
  | LessEqual
  | GreaterThan
  | GreaterEqual
  | Equal
  | EqualEqual
  | BangEqual
  | TildeEqual
  | Dot
  | DotDot
  | DotDotDot
  | Arrow
  | FatArrow
  | PipeOp
  | Question
  | Colon
  | ColonColon
  | Bang
  | At
  | LeftParen
  | RightParen
  | LeftBrace
  | RightBrace
  | LeftBracket
  | RightBracket
  | Comma
  | Semicolon
  | Eof
  | Unknown (c : Char)

/-- Part of a template literal (the `TemplatePart` enum of `token.rs`). -/
inductive TemplatePart where
  | String (s : String)
  | Expression (toks : List Token)

/-- A token with its kind and location (the `Token` struct of `token.rs`). -/
inductive Token where
  | mk (kind : TokenKind) (span : Span)

end

def Token.kind : Token → TokenKind
  | .mk k _ => k

def Token.span : Token → Span
  | .mk _ s => s

/-- `Token::new`. -/
def Token.new (kind : TokenKind) (span : Span) : Token :=
  .mk kind span

/-- `Token::eof(position)`: an end-of-input token with a zero-width span
at `position`, with line and column fields set to 0. -/
def Token.eof (position : Nat) : Token :=
  .mk TokenKind.Eof (Span.new position position 0 0)

/-- Alias for the builtin string type, usable inside the `TokenKind`
namespace where the bare name `String` denotes the string-literal token
constructor. -/
abbrev Str := String

/-- `TokenKind::is_keyword`: check if this token kind is a keyword. -/
def TokenKind.is_keyword : TokenKind → Bool
  | .Const | .Local | .Function | .Return | .If | .Elseif | .Else | .Then
  | .End | .While | .Do | .For | .In | .Break | .Continue | .Repeat
  | .Until | .And | .Or | .Not | .True | .False | .Nil | .Interface
  | .Type | .Enum | .Export | .Import | .From | .As | .Match | .When
  | .Class | .Extends | .Implements | .Public | .Private | .Protected
  | .Static | .Abstract | .Readonly => true
  | _ => false

/-- `TokenKind::from_keyword`: get keyword from string (exact,
case-sensitive match over the reserved words, in source order). -/
def TokenKind.from_keyword (s : Str) : Option TokenKind :=
  match s with
  | "const" => some TokenKind.Const
  | "local" => some TokenKind.Local
  | "function" => some TokenKind.Function
  | "return" => some TokenKind.Return
  | "if" => some TokenKind.If
  | "elseif" => some TokenKind.Elseif
  | "else" => some TokenKind.Else
  | "then" => some TokenKind.Then
  | "end" => some TokenKind.End
  | "while" => some TokenKind.While
  | "do" => some TokenKind.Do
  | "for" => some TokenKind.For
  | "in" => some TokenKind.In
  | "break" => some TokenKind.Break
  | "continue" => some TokenKind.Continue
  | "repeat" => some TokenKind.Repeat
  | "until" => some TokenKind.Until
  | "and" => some TokenKind.And
  | "or" => some TokenKind.Or
  | "not" => some TokenKind.Not
  | "true" => some TokenKind.True
  | "false" => some TokenKind.False
  | "nil" => some TokenKind.Nil
  | "interface" => some TokenKind.Interface
  | "type" => some TokenKind.Type
  | "enum" => some TokenKind.Enum
  | "export" => some TokenKind.Export
  | "import" => some TokenKind.Import
  | "from" => some TokenKind.From
  | "as" => some TokenKind.As
  | "match" => some TokenKind.Match
  | "when" => some TokenKind.When
  | "class" => some TokenKind.Class
  | "extends" => some TokenKind.Extends
  | "implements" => some TokenKind.Implements
  | "public" => some TokenKind.Public
  | "private" => some TokenKind.Private
  | "protected" => some TokenKind.Protected
  | "static" => some TokenKind.Static
  | "abstract" => some TokenKind.Abstract
  | "readonly" => some TokenKind.Readonly
  | _ => none

/-- The reserved-word table: each reserved lexeme paired with its keyword
kind, in the order of the `from_keyword` match arms.  Used to state
exactness of the keyword classification. -/
def kwTable : List (String × TokenKind) :=
  [("const", .Const), ("local", .Local), ("function", .Function),
   ("return", .Return), ("if", .If), ("elseif", .Elseif), ("else", .Else),
   ("then", .Then), ("end", .End), ("while", .While), ("do", .Do),
   ("for", .For), ("in", .In), ("break", .Break), ("continue", .Continue),
   ("repeat", .Repeat), ("until", .Until), ("and", .And), ("or", .Or),
   ("not", .Not), ("true", .True), ("false", .False), ("nil", .Nil),
   ("interface", .Interface), ("type", .Type), ("enum", .Enum),
   ("export", .Export), ("import", .Import), ("from", .From), ("as", .As),
   ("match", .Match), ("when", .When), ("class", .Class),
   ("extends", .Extends), ("implements", .Implements), ("public", .Public),
   ("private", .Private), ("protected", .Protected), ("static", .Static),
   ("abstract", .Abstract), ("readonly", .Readonly)]

/-- Inverse of `from_keyword` on keyword kinds: the reserved word whose
keyword kind is the given one (helper used to prove injectivity). -/
def kwText : TokenKind → Option String
  | .Const => some "const"
  | .Local => some "local"
  | .Function => some "function"
  | .Return => some "return"
  | .If => some "if"
  | .Elseif => some "elseif"
  | .Else => some "else"
  | .Then => some "then"
  | .End => some "end"
  | .While => some "while"
  | .Do => some "do"
  | .For => some "for"
  | .In => some "in"
  | .Break => some "break"
  | .Continue => some "continue"
  | .Repeat => some "repeat"
  | .Until => some "until"
  | .And => some "and"
  | .Or => some "or"
  | .Not => some "not"
  | .True => some "true"
  | .False => some "false"
  | .Nil => some "nil"
  | .Interface => some "interface"
  | .Type => some "type"
  | .Enum => some "enum"
  | .Export => some "export"
  | .Import => some "import"
  | .From => some "from"
  | .As => some "as"
  | .Match => some "match"
  | .When => some "when"
  | .Class => some "class"
  | .Extends => some "extends"
  | .Implements => some "implements"
  | .Public => some "public"
  | .Private => some "private"
  | .Protected => some "protected"
  | .Static => some "static"
  | .Abstract => some "abstract"
  | .Readonly => some "readonly"
  | _ => none

/-! ### Character helpers

Named characters are written via `Char.ofNat` (by code point) where a
character literal would be awkward: 9 tab, 10 newline, 13 carriage
return, 34 double quote, 39 single quote, 92 backslash, 96 backtick,
123 left brace, 125 right brace. -/

def tabChar : Char := Char.ofNat 9

def nlChar : Char := Char.ofNat 10

def crChar : Char := Char.ofNat 13

def dquoteChar : Char := Char.ofNat 34

def squoteChar : Char := Char.ofNat 39

def backslashChar : Char := Char.ofNat 92

def backtickChar : Char := Char.ofNat 96

def lbraceChar : Char := Char.ofNat 123

def rbraceChar : Char := Char.ofNat 125

/-- The whitespace characters: space, tab, newline, carriage return. -/
def wsChars : List Char :=
  [' ', tabChar, nlChar, crChar]

/-- Modelled from the spec: whitespace characters, skipped between
tokens.  (The spec leaves the comment syntax an open question, so the
model skips whitespace only.) -/
def isWs (c : Char) : Bool :=
  wsChars.contains c

/-- Modelled from the spec: a letter or underscore starts an
identifier. -/
def isIdentStart (c : Char) : Bool :=
  c.isAlpha || c == '_'

/-- Modelled from the spec: letters, digits and underscore continue an
identifier. -/
def isIdentChar (c : Char) : Bool :=
  c.isAlphanum || c == '_'

/-! ### Numeric literal scanner -/

/-- Length of the leading run of decimal digits. -/
def decDigits (cs : List Char) : Nat :=
  (cs.takeWhile Char.isDigit).length

/-- Length of an optional fractional part (a dot followed by at least
one digit) at the head of `cs`. -/
def fracLen (cs : List Char) : Nat :=
  match cs with
  | c :: d :: _ =>
    if c == '.' && d.isDigit then 1 + decDigits (cs.drop 1) else 0
  | _ => 0

/-- Length of an optional exponent part (marker, optional sign, at
least one digit) at the head of `cs`. -/
def expLen (cs : List Char) : Nat :=
  match cs with
  | c :: rest =>
    if c == 'e' || c == 'E' then
      match rest with
      | s :: rest2 =>
        if s == '+' || s == '-' then
          if 0 < decDigits rest2 then 2 + decDigits rest2 else 0
        else
          if 0 < decDigits rest then 1 + decDigits rest else 0
      | [] => 0
    else 0
  | [] => 0

/-- Modelled from the spec: length of the numeric literal at the head of
`cs` — a digit sequence with an optional single fractional separator and
an optional exponent marker with optional sign.  The raw matched text is
kept verbatim; parsing to a machine number is deferred. -/
def numLen (cs : List Char) : Nat :=
  let i := decDigits cs
  let f := fracLen (cs.drop i)
  let e := expLen (cs.drop (i + f))
  i + f + e

/-! ### String literal scanner -/

/-- Modelled from the spec: decode one escaped character; newline, tab
and carriage return escapes map to their control characters, any other
escaped character (quote, backslash, unrecognized) passes through
literally. -/
def escChar (c : Char) : Char :=
  if c == 'n' then nlChar
  else if c == 't' then tabChar
  else if c == 'r' then crChar
  else c

/-- Modelled from the spec: scan a quoted string body after the opening
quote `q`.  Returns the decoded content together with the number of
characters consumed (closing quote included), or `none` when end of
input is reached before the closing quote (unterminated string). -/
def strBody (q : Char) : List Char → Option (List Char × Nat)
  | [] => none
  | c :: rest =>
    if c == q then some ([], 1)
    else if c == backslashChar then
      match rest with
      | [] => none
      | e :: rest2 =>
        match strBody q rest2 with
        | some (s, n) => some (escChar e :: s, n + 2)
        | none => none
    else
      match strBody q rest with
      | some (s, n) => some (c :: s, n + 1)
      | none => none

/-! ### Operator matching -/

/-- Three-character operators (from the `token.rs` lexeme comments). -/
def op3 (a b c : Char) : Option TokenKind :=
  if a == '.' && b == '.' && c == '.' then some TokenKind.DotDotDot
  else none

/-- Two-character operator table (from the `token.rs` lexeme comments). -/
def op2Table : List ((Char × Char) × TokenKind) :=
  [(('<', '='), .LessEqual), (('>', '='), .GreaterEqual),
   (('=', '='), .EqualEqual), (('!', '='), .BangEqual),
   (('~', '='), .TildeEqual), (('.', '.'), .DotDot),
   (('-', '>'), .Arrow), (('=', '>'), .FatArrow),
   (('|', '>'), .PipeOp), ((':', ':'), .ColonColon)]

/-- Two-character operators, looked up in the table. -/
def op2 (a b : Char) : Option TokenKind :=
  op2Table.lookup (a, b)

/-- One-character operator, punctuation and delimiter table (from the
`token.rs` lexeme comments). -/
def op1Table : List (Char × TokenKind) :=
  [('+', .Plus), ('-', .Minus), ('*', .Star), ('/', .Slash),
   ('%', .Percent), ('^', .Caret), ('#', .Hash), ('&', .Ampersand),
   ('|', .Pipe), ('~', .Tilde), ('<', .LessThan), ('>', .GreaterThan),
   ('=', .Equal), ('.', .Dot), ('?', .Question), (':', .Colon),
   ('!', .Bang), ('@', .At), ('(', .LeftParen), (')', .RightParen),
   (lbraceChar, .LeftBrace), (rbraceChar, .RightBrace),
   ('[', .LeftBracket), (']', .RightBracket), (',', .Comma),
   (';', .Semicolon)]

/-- One-character operators, punctuation and delimiters, looked up in
the table. -/
def op1 (a : Char) : Option TokenKind :=
  op1Table.lookup a

/-- Modelled from the spec: longest-match-first operator matching — a
three-character match is preferred over a two-character one, which is
preferred over a one-character one.  Returns the matched kind and its
length. -/
def opMatch (cs : List Char) : Option (TokenKind × Nat) :=
  match cs with
  | a :: b :: c :: _ =>
    match op3 a b c with
    | some k => some (k, 3)
    | none =>
      match op2 a b with
      | some k => some (k, 2)
      | none =>
        match op1 a with
        | some k => some (k, 1)
        | none => none
  | [a, b] =>
    match op2 a b with
    | some k => some (k, 2)
    | none =>
      match op1 a with
      | some k => some (k, 1)
      | none => none
  | [a] =>
    match op1 a with
    | some k => some (k, 1)
    | none => none
  | [] => none

/-! ### Cursor and scanner core -/

/-- Modelled from the spec: the scanner cursor — absolute offset, line
and column over the immutable input text. -/
structure Cursor where
  offset : Nat
  line : Nat
  column : Nat
deriving DecidableEq, Repr

/-- Modelled from the spec: advance the cursor over one character; a
newline increments the line counter and resets the column. -/
def advChar (cur : Cursor) (c : Char) : Cursor :=
  if c == nlChar then ⟨cur.offset + 1, cur.line + 1, 0⟩
  else ⟨cur.offset + 1, cur.line, cur.column + 1⟩

/-- Advance the cursor over a list of characters. -/
def advStr (cur : Cursor) (cs : List Char) : Cursor :=
  cs.foldl advChar cur

/-- Kind test used by the scanning loop: end-of-input sentinel. -/
def isEofKind : TokenKind → Bool
  | .Eof => true
  | _ => false

/-- Kind test used by the template scanner: left brace token. -/
def isLBraceKind : TokenKind → Bool
  | .LeftBrace => true
  | _ => false

/-- Kind test used by the template scanner: right brace token. -/
def isRBraceKind : TokenKind → Bool
  | .RightBrace => true
  | _ => false

/-- Head-of-list character test. -/
def headIs (x : Char) : List Char → Bool
  | c :: _ => c == x
  | [] => false

/-- Turn an accumulated run of literal template characters into a
template-part list; an empty run produces no part. -/
def litPart (lit : List Char) : List TemplatePart :=
  if lit.isEmpty then [] else [TemplatePart.String (String.mk lit)]

/-- Result of scanning the inside of a template literal: the collected
parts and the count of characters consumed (closing backtick included),
or an unterminated-template marker. -/
inductive TRes where
  | ok (parts : List TemplatePart) (n : Nat)
  | unterminated

/-- Result of scanning an embedded template expression: the collected
tokens and the count of characters consumed (closing brace included),
or an unterminated marker. -/
inductive ERes where
  | ok (toks : List Token) (n : Nat)
  | unterminated

mutual

/-- Modelled from the spec: `next_token`.  Skips whitespace, then
classifies the next character: end of input yields the end-of-input
token; a letter or underscore starts an identifier resolved against the
keyword table; a digit starts a numeric literal carrying its raw text;
a quote starts a string literal (unterminated strings yield one invalid
token spanning to the failure point); a backtick starts a template
literal; otherwise longest-match operator matching applies, and a
character starting no lexeme yields an unknown token and advances by
exactly one character.  Returns the token and the total number of
characters consumed (skipped whitespace included).  The fuel argument
only bounds recursion depth; `none` signals fuel exhaustion and never
occurs when the fuel exceeds twice the remaining input length. -/
def nextTok : Nat → Cursor → List Char → Option (Token × Nat)
  | 0, _, _ => none
  | fuel+1, cur, cs =>
    let w := (cs.takeWhile isWs).length
    let cur1 := advStr cur (cs.take w)
    match cs.drop w with
    | [] => some (Token.eof cur1.offset, w)
    | c :: rest =>
      if isIdentStart c then
        let k := 1 + (rest.takeWhile isIdentChar).length
        let text := String.mk ((c :: rest).take k)
        let kind :=
          match TokenKind.from_keyword text with
          | some kw => kw
          | none => TokenKind.Identifier text
        some (Token.new kind
          (Span.new cur1.offset (cur1.offset + k) cur1.line cur1.column),
          w + k)
      else if c.isDigit then
        let k := numLen (c :: rest)
        some (Token.new (TokenKind.Number (String.mk ((c :: rest).take k)))
          (Span.new cur1.offset (cur1.offset + k) cur1.line cur1.column),
          w + k)
      else if c == dquoteChar || c == squoteChar then
        match strBody c rest with
        | some (content, n) =>
          some (Token.new (TokenKind.String (String.mk content))
            (Span.new cur1.offset (cur1.offset + 1 + n) cur1.line cur1.column),
            w + 1 + n)
        | none =>
          some (Token.new (TokenKind.Unknown c)
            (Span.new cur1.offset (cur1.offset + 1 + rest.length) cur1.line
              cur1.column),
            w + 1 + rest.length)
      else if c == backtickChar then
        match scanTmpl fuel (advChar cur1 c) rest [] [] with
        | some (TRes.ok parts n) =>
          some (Token.new (TokenKind.TemplateString parts)
            (Span.new cur1.offset (cur1.offset + 1 + n) cur1.line cur1.column),
            w + 1 + n)
        | some TRes.unterminated =>
          some (Token.new (TokenKind.Unknown c)
            (Span.new cur1.offset (cur1.offset + 1 + rest.length) cur1.line
              cur1.column),
            w + 1 + rest.length)
        | none => none
      else
        match opMatch (c :: rest) with
        | some (k, n) =>
          some (Token.new k
            (Span.new cur1.offset (cur1.offset + n) cur1.line cur1.column),
            w + n)
        | none =>
          some (Token.new (TokenKind.Unknown c)
            (Span.new cur1.offset (cur1.offset + 1) cur1.line cur1.column),
            w + 1)
termination_by structural fuel _ _ => fuel

/-- Modelled from the spec: scan the inside of a template literal after
the opening backtick, alternating literal text and embedded
expressions: a backtick closes the template; a dollar-brace opener
starts an embedded expression scanned by `scanEmb`; any other character
extends the current literal run; end of input means the template is
unterminated. -/
def scanTmpl : Nat → Cursor → List Char → List Char → List TemplatePart →
    Option TRes
  | 0, _, _, _, _ => none
  | _+1, _, [], _, _ => some TRes.unterminated
  | fuel+1, cur, c :: rest, lit, parts =>
      if c == backtickChar then
        some (TRes.ok (parts ++ litPart lit) 1)
      else if c == '$' && headIs lbraceChar rest then
        match scanEmb fuel (advStr cur ((c :: rest).take 2)) (rest.drop 1)
            [] 0 with
        | some (ERes.ok toks m) =>
          match scanTmpl fuel (advStr cur ((c :: rest).take (2 + m)))
              (rest.drop (1 + m)) []
              (parts ++ litPart lit ++ [TemplatePart.Expression toks]) with
          | some (TRes.ok parts2 n) => some (TRes.ok parts2 (2 + m + n))
          | some TRes.unterminated => some TRes.unterminated
          | none => none
        | some ERes.unterminated => some TRes.unterminated
        | none => none
      else
        match scanTmpl fuel (advChar cur c) rest (lit ++ [c]) parts with
        | some (TRes.ok parts2 n) => some (TRes.ok parts2 (1 + n))
        | some TRes.unterminated => some TRes.unterminated
        | none => none
termination_by structural fuel _ _ _ _ => fuel

/-- Modelled from the spec: scan an embedded template expression by
repeatedly invoking the scanner core, tracking open/close brace depth so
braces inside the expression do not prematurely close it; a right brace
at depth zero closes the expression, end of input before that makes the
template unterminated. -/
def scanEmb : Nat → Cursor → List Char → List Token → Nat → Option ERes
  | 0, _, _, _, _ => none
  | fuel+1, cur, cs, acc, depth =>
    match nextTok fuel cur cs with
    | none => none
    | some (t, k) =>
      if isEofKind t.kind then some ERes.unterminated
      else if isRBraceKind t.kind && depth == 0 then some (ERes.ok acc k)
      else
        let depth2 :=
          if isLBraceKind t.kind then depth + 1
          else if isRBraceKind t.kind then depth - 1
          else depth
        match scanEmb fuel (advStr cur (cs.take k)) (cs.drop k) (acc ++ [t])
            depth2 with
        | some (ERes.ok toks m) => some (ERes.ok toks (k + m))
        | some ERes.unterminated => some ERes.unterminated
        | none => none
termination_by structural fuel _ _ _ _ => fuel

end

/-- Modelled from the spec: the eager tokenization loop — pull tokens
one at a time, stopping after the terminal end-of-input token.  Each
pull gets fuel proportional to the remaining input, which always
suffices. -/
def tokLoop : Nat → Cursor → List Char → List Token
  | 0, _, _ => []
  | fuel+1, cur, cs =>
    match nextTok (2 * cs.length + 1) cur cs with
    | none => []
    | some (t, k) =>
      if isEofKind t.kind then [t]
      else t :: tokLoop fuel (advStr cur (cs.take k)) (cs.drop k)

/-- Modelled from the spec: tokenize a full source text into a finite
ordered token stream terminated by the end-of-input token. -/
def tokenize (source : String) : List Token :=
  tokLoop (source.data.length + 1) ⟨0, 0, 0⟩ source.data

/-! ### Keyword lemmas -/

/-- `from_keyword` inverts `kwText` on the keyword kinds. -/
lemma kwText_from_keyword (k : TokenKind) (s : String)
    (h : kwText k = some s) : TokenKind.from_keyword s = some k := by
  cases k <;>
    first
      | exact Option.noConfusion h
      | (injection h with h2; subst h2; rfl)

/-- `from_keyword` succeeds exactly on the pairs of the reserved-word
table. -/
lemma from_keyword_mem (s : String) (k : TokenKind) :
    TokenKind.from_keyword s = some k ↔ (s, k) ∈ kwTable := by
  constructor
  · intro h
    unfold TokenKind.from_keyword at h
    split at h <;>
      first
        | (injection h with h2; subst h2; simp [kwTable])
        | injection h
  · intro h
    have hall : kwTable.all (fun x => kwText x.2 == some x.1) = true := rfl
    have h2 := List.all_eq_true.mp hall (s, k) h
    simp only [beq_iff_eq] at h2
    exact kwText_from_keyword k s h2

/-- `kwText` inverts `from_keyword`. -/
lemma from_keyword_kwText (s : String) (k : TokenKind)
    (h : TokenKind.from_keyword s = some k) : kwText k = some s := by
  unfold TokenKind.from_keyword at h
  split at h <;>
    first
      | (injection h with h2; subst h2; rfl)
      | injection h

/-- Every successful `from_keyword` result is a keyword kind. -/
lemma from_keyword_is_kw (s : String) (k : TokenKind)
    (h : TokenKind.from_keyword s = some k) : k.is_keyword = true := by
  unfold TokenKind.from_keyword at h
  split at h <;>
    first
      | (injection h with h2; subst h2; rfl)
      | injection h

/-- Every keyword kind is hit by `from_keyword`. -/
lemma is_kw_exists (k : TokenKind) (h : k.is_keyword = true) :
    ∃ s, TokenKind.from_keyword s = some k := by
  cases k
  case Const => exact ⟨"const", rfl⟩
  case Local => exact ⟨"local", rfl⟩
  case Function => exact ⟨"function", rfl⟩
  case Return => exact ⟨"return", rfl⟩
  case If => exact ⟨"if", rfl⟩
  case Elseif => exact ⟨"elseif", rfl⟩
  case Else => exact ⟨"else", rfl⟩
  case Then => exact ⟨"then", rfl⟩
  case End => exact ⟨"end", rfl⟩
  case While => exact ⟨"while", rfl⟩
  case Do => exact ⟨"do", rfl⟩
  case For => exact ⟨"for", rfl⟩
  case In => exact ⟨"in", rfl⟩
  case Break => exact ⟨"break", rfl⟩
  case Continue => exact ⟨"continue", rfl⟩
  case Repeat => exact ⟨"repeat", rfl⟩
  case Until => exact ⟨"until", rfl⟩
  case And => exact ⟨"and", rfl⟩
  case Or => exact ⟨"or", rfl⟩
  case Not => exact ⟨"not", rfl⟩
  case True => exact ⟨"true", rfl⟩
  case False => exact ⟨"false", rfl⟩
  case Nil => exact ⟨"nil", rfl⟩
  case Interface => exact ⟨"interface", rfl⟩
  case «Type» => exact ⟨"type", rfl⟩
  case Enum => exact ⟨"enum", rfl⟩
  case Export => exact ⟨"export", rfl⟩
  case Import => exact ⟨"import", rfl⟩
  case From => exact ⟨"from", rfl⟩
  case As => exact ⟨"as", rfl⟩
  case Match => exact ⟨"match", rfl⟩
  case When => exact ⟨"when", rfl⟩
  case Class => exact ⟨"class", rfl⟩
  case Extends => exact ⟨"extends", rfl⟩
  case Implements => exact ⟨"implements", rfl⟩
  case Public => exact ⟨"public", rfl⟩
  case Private => exact ⟨"private", rfl⟩
  case Protected => exact ⟨"protected", rfl⟩
  case Static => exact ⟨"static", rfl⟩
  case Abstract => exact ⟨"abstract", rfl⟩
  case Readonly => exact ⟨"readonly", rfl⟩
  all_goals exact Bool.noConfusion h

/-- The operator, punctuation and delimiter kinds of `token.rs`, in
source order. -/
def opDelimKinds : List TokenKind :=
  [.Plus, .Minus, .Star, .Slash, .Percent, .Caret, .Hash, .Ampersand,
   .Pipe, .Tilde, .LessThan, .LessEqual, .GreaterThan, .GreaterEqual,
   .Equal, .EqualEqual, .BangEqual, .TildeEqual, .Dot, .DotDot,
   .DotDotDot, .Arrow, .FatArrow, .PipeOp, .Question, .Colon,
   .ColonColon, .Bang, .At, .LeftParen, .RightParen, .LeftBrace,
   .RightBrace, .LeftBracket, .RightBracket, .Comma, .Semicolon]

/-! ### Claims about the keyword table and the end-of-input token -/

/-- C1: keyword classification is exact, total and case-sensitive —
`from_keyword s` returns `some k` precisely when `(s, k)` is one of the
41 entries of the reserved-word table; the table has 41 entries; the
case variant "Const" is not a keyword, and in a full tokenization it is
classified as a plain identifier carrying its exact text. -/
theorem keyword_classification_exact :
    (∀ (s : String) (k : TokenKind),
        TokenKind.from_keyword s = some k ↔ (s, k) ∈ kwTable) ∧
    kwTable.length = 41 ∧
    TokenKind.from_keyword "Const" = none ∧
    tokenize "Const" =
      [Token.new (TokenKind.Identifier "Const") (Span.new 0 5 0 0),
       Token.eof 5] :=
  ⟨from_keyword_mem, rfl, rfl, rfl⟩

/-- Witness for C1: the backward direction at a concrete table entry. -/
theorem keyword_classification_exact_witness :
    TokenKind.from_keyword "const" = some TokenKind.Const :=
  (keyword_classification_exact.1 "const" TokenKind.Const).2
    (by simp [kwTable])

/-- C8: `from_keyword` and `is_keyword` agree — every `from_keyword`
output is a keyword kind, every keyword kind is some reserved word's
image, and `is_keyword` is false on identifiers, literals, templates,
operators, delimiters, `Eof` and `Unknown`. -/
theorem is_keyword_agrees_from_keyword :
    (∀ (s : String) (k : TokenKind),
        TokenKind.from_keyword s = some k → k.is_keyword = true) ∧
    (∀ k : TokenKind, k.is_keyword = true →
        ∃ s, TokenKind.from_keyword s = some k) ∧
    (∀ s, (TokenKind.Identifier s).is_keyword = false) ∧
    (∀ s, (TokenKind.Number s).is_keyword = false) ∧
    (∀ s, (TokenKind.String s).is_keyword = false) ∧
    (∀ ps, (TokenKind.TemplateString ps).is_keyword = false) ∧
    TokenKind.Eof.is_keyword = false ∧
    (∀ c, (TokenKind.Unknown c).is_keyword = false) ∧
    (∀ k ∈ opDelimKinds, k.is_keyword = false) := by
  refine ⟨from_keyword_is_kw, is_kw_exists, fun s => rfl, fun s => rfl,
    fun s => rfl, fun ps => rfl, rfl, fun c => rfl, ?_⟩
  intro k hk
  have hall : opDelimKinds.all (fun x => !(x.is_keyword)) = true := rfl
  simpa using List.all_eq_true.mp hall k hk

/-- Witness for C8: both implications at concrete inputs. -/
theorem is_keyword_agrees_from_keyword_witness :
    TokenKind.is_keyword TokenKind.Const = true ∧
    TokenKind.is_keyword TokenKind.Plus = false :=
  ⟨is_keyword_agrees_from_keyword.1 "const" TokenKind.Const rfl,
   is_keyword_agrees_from_keyword.2.2.2.2.2.2.2.2 TokenKind.Plus
     (by simp [opDelimKinds])⟩

/-- C9: the span of `Token::eof(p)` has line 0 and column 0, for every
position `p` — the end-of-input token does not record the actual line
and column of the end of input. -/
theorem eof_span_line_col_zero :
    ∀ p : Nat, (Token.eof p).span.line = 0 ∧ (Token.eof p).span.column = 0 :=
  fun _ => ⟨rfl, rfl⟩

/-- C10: `from_keyword` is injective on the reserved words, its outputs
are always keyword kinds (never payload-carrying, operator, delimiter
or sentinel kinds), the reserved vocabulary has 41 entries, and every
keyword kind is reached, giving a one-to-one correspondence. -/
theorem from_keyword_injective :
    (∀ (s1 s2 : String) (k : TokenKind),
        TokenKind.from_keyword s1 = some k →
        TokenKind.from_keyword s2 = some k → s1 = s2) ∧
    (∀ (s : String) (k : TokenKind),
        TokenKind.from_keyword s = some k → k.is_keyword = true) ∧
    kwTable.length = 41 ∧
    (∀ k : TokenKind, k.is_keyword = true →
        ∃ s, TokenKind.from_keyword s = some k) := by
  refine ⟨?_, from_keyword_is_kw, rfl, is_kw_exists⟩
  intro s1 s2 k h1 h2
  have t1 := from_keyword_kwText s1 k h1
  have t2 := from_keyword_kwText s2 k h2
  exact Option.some.inj (t1.symm.trans t2)

/-- Witness for C10: injectivity applied at a concrete keyword. -/
theorem from_keyword_injective_witness : ("local" : String) = "local" :=
  from_keyword_injective.1 "local" "local" TokenKind.Local rfl rfl

/-! ### Scanner helper lemmas -/

lemma advChar_offset (cur : Cursor) (c : Char) :
    (advChar cur c).offset = cur.offset + 1 := by
  unfold advChar
  split <;> rfl

lemma advStr_offset (cur : Cursor) (cs : List Char) :
    (advStr cur cs).offset = cur.offset + cs.length := by
  induction cs generalizing cur with
  | nil => rfl
  | cons c rest ih =>
    show (advStr (advChar cur c) rest).offset = _
    rw [ih, advChar_offset, List.length_cons]
    omega

lemma len_takeWhile_le (p : Char → Bool) (l : List Char) :
    (l.takeWhile p).length ≤ l.length := by
  induction l with
  | nil => simp
  | cons c rest ih =>
    rw [List.takeWhile_cons]
    split
    · simp only [List.length_cons]
      omega
    · simp

lemma takeWhile_pred_getD (p : Char → Bool) :
    ∀ (l : List Char) (i : Nat) (d : Char),
      i < (l.takeWhile p).length → p (l.getD i d) = true := by
  intro l
  induction l with
  | nil =>
    intro i d h
    simp at h
  | cons c rest ih =>
    intro i d h
    rw [List.takeWhile_cons] at h
    by_cases hc : p c = true
    · simp only [hc, if_true, List.length_cons] at h
      cases i with
      | zero => simpa using hc
      | succ j => simpa using ih j d (by omega)
    · simp [hc] at h

lemma getD_drop_add (l : List Char) (p i : Nat) (d : Char) :
    (l.drop p).getD i d = l.getD (p + i) d := by
  simp [List.getD_eq_getElem?_getD, List.getElem?_drop]

lemma decDigits_le (cs : List Char) : decDigits cs ≤ cs.length :=
  len_takeWhile_le _ _

lemma decDigits_pos (c : Char) (rest : List Char) (h : c.isDigit = true) :
    1 ≤ decDigits (c :: rest) := by
  simp [decDigits, List.takeWhile_cons, h]

lemma fracLen_le : ∀ cs : List Char, fracLen cs ≤ cs.length := by
  intro cs
  match cs with
  | [] => simp [fracLen]
  | [c] => simp [fracLen]
  | c :: d :: t =>
    simp only [fracLen]
    split
    · have := decDigits_le ((c :: d :: t).drop 1)
      simp only [List.drop_succ_cons, List.drop_zero, List.length_cons] at this ⊢
      omega
    · simp

lemma expLen_le : ∀ cs : List Char, expLen cs ≤ cs.length := by
  intro cs
  match cs with
  | [] => simp [expLen]
  | [c] => simp [expLen]
  | c :: s :: t =>
    simp only [expLen]
    split
    · split
      · have h2 := decDigits_le t
        split <;> simp only [List.length_cons] <;> omega
      · have h2 := decDigits_le (s :: t)
        split <;> simp only [List.length_cons] at h2 ⊢ <;> omega
    · simp

lemma numLen_le (cs : List Char) : numLen cs ≤ cs.length := by
  have h1 := decDigits_le cs
  have h2 := fracLen_le (cs.drop (decDigits cs))
  have h3 := expLen_le
    (cs.drop (decDigits cs + fracLen (cs.drop (decDigits cs))))
  simp only [List.length_drop] at h2 h3
  simp only [numLen]
  omega

lemma numLen_pos (c : Char) (rest : List Char) (h : c.isDigit = true) :
    1 ≤ numLen (c :: rest) := by
  have := decDigits_pos c rest h
  simp only [numLen]
  omega

lemma strBody_bounds (q : Char) (cs s : List Char) (n : Nat)
    (h : strBody q cs = some (s, n)) : 1 ≤ n ∧ n ≤ cs.length := by
  suffices H : ∀ (L : Nat) (cs s : List Char) (n : Nat), cs.length ≤ L →
      strBody q cs = some (s, n) → 1 ≤ n ∧ n ≤ cs.length from
    H cs.length cs s n (Nat.le_refl _) h
  intro L
  induction L with
  | zero =>
    intro cs s n hc h
    match cs, hc with
    | [], _ => exact Option.noConfusion h
  | succ L ih =>
    intro cs s n hc h
    match cs with
    | [] => exact Option.noConfusion h
    | c :: rest =>
      unfold strBody at h
      by_cases h1 : (c == q) = true
      · simp only [h1, if_true] at h
        have : n = 1 := by
          cases h
          rfl
        simp [this]
      · simp only [h1] at h
        by_cases h2 : (c == backslashChar) = true
        · simp only [h2, if_true, if_false] at h
          match rest, hc with
          | [], _ => exact Option.noConfusion h
          | e :: rest2, hc =>
            cases hsb : strBody q rest2 with
            | none => simp [hsb] at h
            | some pr =>
              obtain ⟨s2, n2⟩ := pr
              simp only [hsb] at h
              have hb := ih rest2 s2 n2 (by simp at hc; omega) hsb
              cases h
              simp only [List.length_cons]
              omega
        · simp only [h2, if_false] at h
          cases hsb : strBody q rest with
          | none => simp [hsb] at h
          | some pr =>
            obtain ⟨s2, n2⟩ := pr
            simp only [hsb] at h
            have hb := ih rest s2 n2 (by simp at hc; omega) hsb
            cases h
            simp only [List.length_cons]
            omega

lemma opMatch_bounds (cs : List Char) (k : TokenKind) (n : Nat)
    (h : opMatch cs = some (k, n)) : 1 ≤ n ∧ n ≤ cs.length := by
  match cs with
  | [] => simp [opMatch] at h
  | [a] =>
    simp only [opMatch] at h
    cases hop : op1 a <;> simp [hop] at h
    simp [h.2.symm]
  | [a, b] =>
    simp only [opMatch] at h
    cases hop2 : op2 a b with
    | some k2 =>
      simp only [hop2] at h
      cases h
      simp
    | none =>
      simp only [hop2] at h
      cases hop1 : op1 a <;> simp [hop1] at h
      simp [h.2.symm]
  | a :: b :: c :: t =>
    simp only [opMatch] at h
    cases hop3 : op3 a b c with
    | some k3 =>
      simp only [hop3] at h
      cases h
      simp only [List.length_cons]
      omega
    | none =>
      simp only [hop3] at h
      cases hop2 : op2 a b with
      | some k2 =>
        simp only [hop2] at h
        cases h
        simp only [List.length_cons]
        omega
      | none =>
        simp only [hop2] at h
        cases hop1 : op1 a <;> simp [hop1] at h
        obtain ⟨rfl, rfl⟩ := h
        simp only [List.length_cons]
        omega

/-! ### Kinds produced by sub-scanners are never the end-of-input kind -/

lemma from_keyword_not_eof (s : String) (k : TokenKind)
    (h : TokenKind.from_keyword s = some k) : isEofKind k = false := by
  unfold TokenKind.from_keyword at h
  split at h <;>
    first
      | (injection h with h2; subst h2; rfl)
      | injection h

lemma identKind_not_eof (text : String) :
    isEofKind
      (match TokenKind.from_keyword text with
        | some kw => kw
        | none => TokenKind.Identifier text) = false := by
  cases h : TokenKind.from_keyword text with
  | some kw => exact from_keyword_not_eof text kw h
  | none => rfl

lemma op3_not_eof (a b c : Char) (k : TokenKind) (h : op3 a b c = some k) :
    isEofKind k = false := by
  unfold op3 at h
  repeat (first
    | (injection h with h2; subst h2; rfl)
    | injection h
    | split at h)

/-- A predicate holding on every value of an association table holds on
every successful lookup result. -/
lemma lookup_snd_pred {α β : Type} [BEq α] (p : β → Bool) :
    ∀ (tbl : List (α × β)) (a : α) (b : β),
      (∀ x ∈ tbl, p x.2 = true) → tbl.lookup a = some b → p b = true := by
  intro tbl
  induction tbl with
  | nil =>
    intro a b _ h
    exact Option.noConfusion h
  | cons x rest ih =>
    intro a b hall h
    obtain ⟨xk, xv⟩ := x
    unfold List.lookup at h
    cases hx : a == xk with
    | true =>
      simp only [hx] at h
      cases h
      exact hall (xk, b) (by simp)
    | false =>
      simp only [hx] at h
      exact ih a b (fun y hy => hall y (by simp [hy])) h

lemma op2_not_eof (a b : Char) (k : TokenKind) (h : op2 a b = some k) :
    isEofKind k = false := by
  have hall : ∀ x ∈ op2Table, (!(isEofKind x.2)) = true := by
    intro x hx
    have hb : op2Table.all (fun y => !(isEofKind y.2)) = true := rfl
    exact (List.all_eq_true.mp hb) x hx
  simpa using lookup_snd_pred (fun kk => !(isEofKind kk)) op2Table (a, b) k
    hall h

lemma op1_not_eof (a : Char) (k : TokenKind) (h : op1 a = some k) :
    isEofKind k = false := by
  have hall : ∀ x ∈ op1Table, (!(isEofKind x.2)) = true := by
    intro x hx
    have hb : op1Table.all (fun y => !(isEofKind y.2)) = true := rfl
    exact (List.all_eq_true.mp hb) x hx
  simpa using lookup_snd_pred (fun kk => !(isEofKind kk)) op1Table a k
    hall h

lemma opMatch_not_eof (cs : List Char) (k : TokenKind) (n : Nat)
    (h : opMatch cs = some (k, n)) : isEofKind k = false := by
  match cs with
  | [] => exact Option.noConfusion h
  | [a] =>
    simp only [opMatch] at h
    cases hop : op1 a with
    | some k1 =>
      simp only [hop] at h
      cases h
      exact op1_not_eof a _ hop
    | none => simp [hop] at h
  | [a, b] =>
    simp only [opMatch] at h
    cases hop2 : op2 a b with
    | some k2 =>
      simp only [hop2] at h
      cases h
      exact op2_not_eof a b _ hop2
    | none =>
      simp only [hop2] at h
      cases hop : op1 a with
      | some k1 =>
        simp only [hop] at h
        cases h
        exact op1_not_eof a _ hop
      | none => simp [hop] at h
  | a :: b :: c :: t =>
    simp only [opMatch] at h
    cases hop3 : op3 a b c with
    | some k3 =>
      simp only [hop3] at h
      cases h
      exact op3_not_eof a b c _ hop3
    | none =>
      simp only [hop3] at h
      cases hop2 : op2 a b with
      | some k2 =>
        simp only [hop2] at h
        cases h
        exact op2_not_eof a b _ hop2
      | none =>
        simp only [hop2] at h
        cases hop : op1 a with
        | some k1 =>
          simp only [hop] at h
          cases h
          exact op1_not_eof a _ hop
        | none => simp [hop] at h

/-! ### The one-step scanner specification -/

/-- Specification of one `nextTok` step: the consumed count `k` covers
the skipped whitespace and the token text, the token span starts right
after the skipped whitespace and ends at the new cursor position, and
the end-of-input token appears exactly when the rest of the input is
whitespace, consuming it all. -/
def NextSpec (cur : Cursor) (cs : List Char) (t : Token) (k : Nat) : Prop :=
  (cs.takeWhile isWs).length ≤ k ∧
  k ≤ cs.length ∧
  t.span.start = cur.offset + (cs.takeWhile isWs).length ∧
  t.span.stop = cur.offset + k ∧
  (isEofKind t.kind = true →
    t = Token.eof (cur.offset + cs.length) ∧ k = cs.length ∧
      (cs.takeWhile isWs).length = cs.length) ∧
  (isEofKind t.kind = false → (cs.takeWhile isWs).length < k)

lemma NextSpec_build (cur : Cursor) (cs : List Char) (t : Token) (k : Nat)
    (hlt : (cs.takeWhile isWs).length < k)
    (h2 : k ≤ cs.length)
    (hstart : t.span.start = cur.offset + (cs.takeWhile isWs).length)
    (hstop : t.span.stop = cur.offset + k)
    (hne : isEofKind t.kind = false) :
    NextSpec cur cs t k :=
  ⟨by omega, h2, hstart, hstop,
   by
     intro hx
     rw [hne] at hx
     exact Bool.noConfusion hx,
   fun _ => hlt⟩

/-- Fuel sufficiency and one-step bounds for the three mutually
recursive scanner functions, proved by one induction on the fuel. -/
lemma scan_spec : ∀ fuel : Nat,
    (∀ cur cs, 2 * cs.length + 1 ≤ fuel →
      ∃ t k, nextTok fuel cur cs = some (t, k) ∧ NextSpec cur cs t k) ∧
    (∀ cur cs lit parts, 2 * cs.length + 2 ≤ fuel →
      ∃ r, scanTmpl fuel cur cs lit parts = some r ∧
        ∀ ps n, r = TRes.ok ps n → 1 ≤ n ∧ n ≤ cs.length) ∧
    (∀ cur cs acc depth, 2 * cs.length + 2 ≤ fuel →
      ∃ r, scanEmb fuel cur cs acc depth = some r ∧
        ∀ ts m, r = ERes.ok ts m → 1 ≤ m ∧ m ≤ cs.length) := by
  intro fuel
  induction fuel with
  | zero =>
    refine ⟨?_, ?_, ?_⟩ <;> (intro _ cs; intros; omega)
  | succ fuel ih =>
    obtain ⟨ihN, ihT, ihE⟩ := ih
    refine ⟨?_, ?_, ?_⟩
    · -- nextTok
      intro cur cs hf
      have hw_le : (cs.takeWhile isWs).length ≤ cs.length :=
        len_takeWhile_le _ _
      unfold nextTok
      cases hdrop : cs.drop (cs.takeWhile isWs).length with
      | nil =>
        have hw_eq : (cs.takeWhile isWs).length = cs.length := by
          have := congrArg List.length hdrop
          simp only [List.length_drop, List.length_nil] at this
          omega
        refine ⟨Token.eof
          (advStr cur (cs.take (cs.takeWhile isWs).length)).offset,
          (cs.takeWhile isWs).length, by simp only [hdrop], ?_⟩
        have hoff : (advStr cur
            (cs.take (cs.takeWhile isWs).length)).offset =
            cur.offset + cs.length := by
          rw [advStr_offset, List.length_take]
          omega
        refine ⟨by omega, by omega, ?_, ?_, ?_, ?_⟩
        · simp only [Token.eof, Token.span, Span.new, hoff]
          omega
        · simp only [Token.eof, Token.span, Span.new, hoff]
          omega
        · intro _
          rw [hoff]
          exact ⟨rfl, by omega, hw_eq⟩
        · intro hx
          exact absurd hx (by simp [Token.eof, Token.kind, isEofKind])
      | cons c rest =>
        have hlen : cs.length = (cs.takeWhile isWs).length + 1 + rest.length := by
          have := congrArg List.length hdrop
          simp only [List.length_drop, List.length_cons] at this
          omega
        simp only [hdrop]
        by_cases hid : isIdentStart c = true
        · rw [if_pos hid]
          refine ⟨_, _, rfl, ?_⟩
          have htw := len_takeWhile_le isIdentChar rest
          refine NextSpec_build cur cs _ _ (by omega) (by omega) ?_ ?_ ?_
          · simp [Token.new, Token.span, Span.new, advStr_offset,
              List.length_take]
            omega
          · simp [Token.new, Token.span, Span.new, advStr_offset,
              List.length_take]
            omega
          · exact identKind_not_eof _
        · rw [if_neg hid]
          by_cases hdig : c.isDigit = true
          · rw [if_pos hdig]
            refine ⟨_, _, rfl, ?_⟩
            have hnl := numLen_le (c :: rest)
            have hnp := numLen_pos c rest hdig
            simp only [List.length_cons] at hnl
            refine NextSpec_build cur cs _ _ (by omega) (by omega) ?_ ?_ rfl
            · simp [Token.new, Token.span, Span.new, advStr_offset,
                List.length_take]
              omega
            · simp [Token.new, Token.span, Span.new, advStr_offset,
                List.length_take]
              omega
          · rw [if_neg hdig]
            by_cases hq : (c == dquoteChar || c == squoteChar) = true
            · rw [if_pos hq]
              cases hsb : strBody c rest with
              | some pr =>
                obtain ⟨content, n⟩ := pr
                obtain ⟨hn1, hn2⟩ := strBody_bounds c rest content n hsb
                simp only [hsb]
                refine ⟨_, _, rfl, ?_⟩
                refine NextSpec_build cur cs _ _ (by omega) (by omega) ?_ ?_ rfl
                · simp [Token.new, Token.span, Span.new, advStr_offset,
                    List.length_take]
                  omega
                · simp [Token.new, Token.span, Span.new, advStr_offset,
                    List.length_take]
                  omega
              | none =>
                simp only [hsb]
                refine ⟨_, _, rfl, ?_⟩
                refine NextSpec_build cur cs _ _ (by omega) (by omega) ?_ ?_ rfl
                · simp [Token.new, Token.span, Span.new, advStr_offset,
                    List.length_take]
                  omega
                · simp [Token.new, Token.span, Span.new, advStr_offset,
                    List.length_take]
                  omega
            · rw [if_neg hq]
              by_cases hbt : (c == backtickChar) = true
              · rw [if_pos hbt]
                obtain ⟨rt, hrt, hbnd⟩ :=
                  ihT (advChar (advStr cur
                    (cs.take (cs.takeWhile isWs).length)) c) rest [] []
                    (by omega)
                rw [hrt]
                cases rt with
                | ok parts n =>
                  obtain ⟨hn1, hn2⟩ := hbnd parts n rfl
                  refine ⟨_, _, rfl, ?_⟩
                  refine NextSpec_build cur cs _ _ (by omega) (by omega)
                    ?_ ?_ rfl
                  · simp [Token.new, Token.span, Span.new, advStr_offset,
                      List.length_take]
                    omega
                  · simp [Token.new, Token.span, Span.new, advStr_offset,
                      List.length_take]
                    omega
                | unterminated =>
                  refine ⟨_, _, rfl, ?_⟩
                  refine NextSpec_build cur cs _ _ (by omega) (by omega)
                    ?_ ?_ rfl
                  · simp [Token.new, Token.span, Span.new, advStr_offset,
                      List.length_take]
                    omega
                  · simp [Token.new, Token.span, Span.new, advStr_offset,
                      List.length_take]
                    omega
              · rw [if_neg hbt]
                cases hop : opMatch (c :: rest) with
                | some pr =>
                  obtain ⟨kd, n⟩ := pr
                  obtain ⟨hn1, hn2⟩ := opMatch_bounds (c :: rest) kd n hop
                  simp only [List.length_cons] at hn2
                  simp only [hop]
                  refine ⟨_, _, rfl, ?_⟩
                  refine NextSpec_build cur cs _ _ (by omega) (by omega)
                    ?_ ?_ (opMatch_not_eof (c :: rest) kd n hop)
                  · simp [Token.new, Token.span, Span.new, advStr_offset,
                      List.length_take]
                    omega
                  · simp [Token.new, Token.span, Span.new, advStr_offset,
                      List.length_take]
                    omega
                | none =>
                  simp only [hop]
                  refine ⟨_, _, rfl, ?_⟩
                  refine NextSpec_build cur cs _ _ (by omega) (by omega)
                    ?_ ?_ rfl
                  · simp [Token.new, Token.span, Span.new, advStr_offset,
                      List.length_take]
                    omega
                  · simp [Token.new, Token.span, Span.new, advStr_offset,
                      List.length_take]
                    omega
    · -- scanTmpl
      intro cur cs lit parts hf
      cases cs with
      | nil =>
        exact ⟨TRes.unterminated, rfl, fun ps n h => TRes.noConfusion h⟩
      | cons c rest =>
        unfold scanTmpl
        by_cases hbt : (c == backtickChar) = true
        · rw [if_pos hbt]
          refine ⟨_, rfl, ?_⟩
          intro ps n h
          cases h
          simp
        · rw [if_neg hbt]
          by_cases hdl : (c == '$' && headIs lbraceChar rest) = true
          · rw [if_pos hdl]
            have hrest : rest ≠ [] := by
              intro hr
              rw [hr] at hdl
              simp [headIs] at hdl
            have hrl : 1 ≤ rest.length := by
              cases rest with
              | nil => exact absurd rfl hrest
              | cons r0 r2 => simp
            obtain ⟨re, hre, hbe⟩ :=
              ihE (advStr cur ((c :: rest).take 2)) (rest.drop 1) [] 0
                (by simp only [List.length_drop, List.length_cons] at hf ⊢; omega)
            cases re with
            | ok toks m =>
              obtain ⟨hm1, hm2⟩ := hbe toks m rfl
              simp only [List.length_drop] at hm2
              simp only [hre]
              obtain ⟨rt, hrt, hbt2⟩ :=
                ihT (advStr cur ((c :: rest).take (2 + m)))
                  (rest.drop (1 + m)) []
                  (parts ++ litPart lit ++ [TemplatePart.Expression toks])
                  (by simp only [List.length_drop, List.length_cons] at hf ⊢; omega)
              cases rt with
              | ok ps2 n2 =>
                obtain ⟨hn1, hn2⟩ := hbt2 ps2 n2 rfl
                simp only [List.length_drop] at hn2
                simp only [hrt]
                refine ⟨_, rfl, ?_⟩
                intro ps n h
                cases h
                simp only [List.length_cons]
                omega
              | unterminated =>
                simp only [hrt]
                exact ⟨TRes.unterminated, rfl, fun ps n h => TRes.noConfusion h⟩
            | unterminated =>
              simp only [hre]
              exact ⟨TRes.unterminated, rfl, fun ps n h => TRes.noConfusion h⟩
          · rw [if_neg hdl]
            obtain ⟨rt, hrt, hbt2⟩ :=
              ihT (advChar cur c) rest (lit ++ [c]) parts
                (by simp only [List.length_cons] at hf; omega)
            cases rt with
            | ok ps2 n2 =>
              obtain ⟨hn1, hn2⟩ := hbt2 ps2 n2 rfl
              simp only [hrt]
              refine ⟨_, rfl, ?_⟩
              intro ps n h
              cases h
              simp only [List.length_cons]
              omega
            | unterminated =>
              simp only [hrt]
              exact ⟨TRes.unterminated, rfl, fun ps n h => TRes.noConfusion h⟩
    · -- scanEmb
      intro cur cs acc depth hf
      unfold scanEmb
      obtain ⟨t, k, hnt, hspec⟩ := ihN cur cs (by omega)
      obtain ⟨hs1, hs2, hs3, hs4, hs5, hs6⟩ := hspec
      simp only [hnt]
      by_cases he : isEofKind t.kind = true
      · rw [if_pos he]
        exact ⟨ERes.unterminated, rfl, fun ts m h => ERes.noConfusion h⟩
      · rw [if_neg he]
        have hk1 : 1 ≤ k := by
          have := hs6 (by
            cases hx : isEofKind t.kind with
            | true => exact absurd hx he
            | false => rfl)
          omega
        by_cases hrb : (isRBraceKind t.kind && depth == 0) = true
        · rw [if_pos hrb]
          refine ⟨_, rfl, ?_⟩
          intro ts m h
          cases h
          exact ⟨hk1, hs2⟩
        · rw [if_neg hrb]
          obtain ⟨re, hre, hbe⟩ :=
            ihE (advStr cur (cs.take k)) (cs.drop k) (acc ++ [t])
              (if isLBraceKind t.kind then depth + 1
               else if isRBraceKind t.kind then depth - 1 else depth)
              (by simp only [List.length_drop]; omega)
          cases re with
          | ok toks m =>
            obtain ⟨hm1, hm2⟩ := hbe toks m rfl
            simp only [List.length_drop] at hm2
            simp only [hre]
            refine ⟨_, rfl, ?_⟩
            intro ts m2 h
            cases h
            exact ⟨by omega, by omega⟩
          | unterminated =>
            simp only [hre]
            exact ⟨ERes.unterminated, rfl, fun ts m h => ERes.noConfusion h⟩

/-! ### Number tokens come only from the numeric scanner -/

/-- Kind test: numeric literal token. -/
def isNumberKind : TokenKind → Bool
  | .Number _ => true
  | _ => false

lemma from_keyword_not_number (s : String) (k : TokenKind)
    (h : TokenKind.from_keyword s = some k) : isNumberKind k = false := by
  unfold TokenKind.from_keyword at h
  split at h <;>
    first
      | (injection h with h2; subst h2; rfl)
      | injection h

lemma op3_not_number (a b c : Char) (k : TokenKind) (h : op3 a b c = some k) :
    isNumberKind k = false := by
  unfold op3 at h
  repeat (first
    | (injection h with h2; subst h2; rfl)
    | injection h
    | split at h)

lemma op2_not_number (a b : Char) (k : TokenKind) (h : op2 a b = some k) :
    isNumberKind k = false := by
  have hall : ∀ x ∈ op2Table, (!(isNumberKind x.2)) = true := by
    intro x hx
    have hb : op2Table.all (fun y => !(isNumberKind y.2)) = true := rfl
    exact (List.all_eq_true.mp hb) x hx
  simpa using lookup_snd_pred (fun kk => !(isNumberKind kk)) op2Table (a, b) k
    hall h

lemma op1_not_number (a : Char) (k : TokenKind) (h : op1 a = some k) :
    isNumberKind k = false := by
  have hall : ∀ x ∈ op1Table, (!(isNumberKind x.2)) = true := by
    intro x hx
    have hb : op1Table.all (fun y => !(isNumberKind y.2)) = true := rfl
    exact (List.all_eq_true.mp hb) x hx
  simpa using lookup_snd_pred (fun kk => !(isNumberKind kk)) op1Table a k
    hall h

lemma opMatch_not_number (cs : List Char) (k : TokenKind) (n : Nat)
    (h : opMatch cs = some (k, n)) : isNumberKind k = false := by
  match cs with
  | [] => exact Option.noConfusion h
  | [a] =>
    simp only [opMatch] at h
    cases hop : op1 a with
    | some k1 =>
      simp only [hop] at h
      cases h
      exact op1_not_number a _ hop
    | none => simp [hop] at h
  | [a, b] =>
    simp only [opMatch] at h
    cases hop2 : op2 a b with
    | some k2 =>
      simp only [hop2] at h
      cases h
      exact op2_not_number a b _ hop2
    | none =>
      simp only [hop2] at h
      cases hop : op1 a with
      | some k1 =>
        simp only [hop] at h
        cases h
        exact op1_not_number a _ hop
      | none => simp [hop] at h
  | a :: b :: c :: t =>
    simp only [opMatch] at h
    cases hop3 : op3 a b c with
    | some k3 =>
      simp only [hop3] at h
      cases h
      exact op3_not_number a b c _ hop3
    | none =>
      simp only [hop3] at h
      cases hop2 : op2 a b with
      | some k2 =>
        simp only [hop2] at h
        cases h
        exact op2_not_number a b _ hop2
      | none =>
        simp only [hop2] at h
        cases hop : op1 a with
        | some k1 =>
          simp only [hop] at h
          cases h
          exact op1_not_number a _ hop
        | none => simp [hop] at h

/-- A `Number` token produced by one scanner step carries exactly the
raw text between the end of the skipped whitespace and the new cursor
position. -/
lemma nextTok_number (fuel : Nat) (cur : Cursor) (cs : List Char)
    (t : Token) (k : Nat) (s : String)
    (h : nextTok fuel cur cs = some (t, k))
    (hk : t.kind = TokenKind.Number s) :
    s.data = (cs.drop (cs.takeWhile isWs).length).take
      (k - (cs.takeWhile isWs).length) := by
  match fuel with
  | 0 => exact Option.noConfusion h
  | fuel+1 =>
    unfold nextTok at h
    cases hdrop : cs.drop (cs.takeWhile isWs).length with
    | nil =>
      simp only [hdrop] at h
      cases h
      exact absurd hk (by simp [Token.eof, Token.kind])
    | cons c rest =>
      simp only [hdrop] at h
      by_cases hid : isIdentStart c = true
      · rw [if_pos hid] at h
        cases h
        simp only [Token.new, Token.kind] at hk
        cases hfk : TokenKind.from_keyword
            (String.mk ((c :: rest).take
              (1 + (rest.takeWhile isIdentChar).length))) with
        | some kw =>
          rw [hfk] at hk
          have hk2 : kw = TokenKind.Number s := hk
          have := from_keyword_not_number _ kw hfk
          rw [hk2] at this
          exact Bool.noConfusion this
        | none =>
          rw [hfk] at hk
          exact TokenKind.noConfusion hk
      · rw [if_neg hid] at h
        by_cases hdig : c.isDigit = true
        · rw [if_pos hdig] at h
          cases h
          simp only [Token.new, Token.kind] at hk
          injection hk with hs
          subst hs
          have harith : (cs.takeWhile isWs).length + numLen (c :: rest) -
              (cs.takeWhile isWs).length = numLen (c :: rest) := by omega
          rw [harith]
        · rw [if_neg hdig] at h
          by_cases hq : (c == dquoteChar || c == squoteChar) = true
          · rw [if_pos hq] at h
            cases hsb : strBody c rest with
            | some pr =>
              obtain ⟨content, n⟩ := pr
              rw [hsb] at h
              cases h
              simp only [Token.new, Token.kind] at hk
              exact TokenKind.noConfusion hk
            | none =>
              rw [hsb] at h
              cases h
              simp only [Token.new, Token.kind] at hk
              exact TokenKind.noConfusion hk
          · rw [if_neg hq] at h
            by_cases hbt : (c == backtickChar) = true
            · rw [if_pos hbt] at h
              cases hst : scanTmpl fuel
                  (advChar (advStr cur
                    (cs.take (cs.takeWhile isWs).length)) c) rest [] [] with
              | none =>
                rw [hst] at h
                exact Option.noConfusion h
              | some rt =>
                rw [hst] at h
                cases rt with
                | ok parts n =>
                  cases h
                  simp only [Token.new, Token.kind] at hk
                  exact TokenKind.noConfusion hk
                | unterminated =>
                  cases h
                  simp only [Token.new, Token.kind] at hk
                  exact TokenKind.noConfusion hk
            · rw [if_neg hbt] at h
              cases hop : opMatch (c :: rest) with
              | some pr =>
                obtain ⟨kd, n⟩ := pr
                rw [hop] at h
                cases h
                simp only [Token.new, Token.kind] at hk
                have := opMatch_not_number (c :: rest) kd n hop
                rw [hk] at this
                exact Bool.noConfusion this
              | none =>
                rw [hop] at h
                cases h
                simp only [Token.new, Token.kind] at hk
                exact TokenKind.noConfusion hk

/-! ### The stream-level invariant -/

/-- Invariant of the token stream produced from position `pos` of
`input`: the stream ends in the end-of-input token at the input length
and contains exactly one such token; spans are bounded, ordered and
pairwise non-overlapping; every input position from `pos` on is either
inside the span of a non-sentinel token or holds a skipped whitespace
character; and every `Number` token carries the exact source substring
of its span. -/
def StreamInv (input : List Char) (pos : Nat) (ts : List Token) : Prop :=
  ts.getLast? = some (Token.eof input.length) ∧
  ts.countP (fun t => isEofKind t.kind) = 1 ∧
  (∀ t ∈ ts, pos ≤ t.span.start ∧ t.span.start ≤ t.span.stop ∧
    t.span.stop ≤ input.length) ∧
  ts.Pairwise (fun a b => a.span.stop ≤ b.span.start) ∧
  (∀ i, pos ≤ i → i < input.length →
    (∃ t ∈ ts, isEofKind t.kind = false ∧ t.span.start ≤ i ∧
      i < t.span.stop) ∨
    isWs (input.getD i ' ') = true) ∧
  (∀ t ∈ ts, ∀ s, t.kind = TokenKind.Number s →
    s.data = (input.drop t.span.start).take (t.span.stop - t.span.start))

/-- Positions inside the whitespace skipped at the head of the suffix at
`pos` hold whitespace characters of the input. -/
lemma ws_skip_cov (input : List Char) (pos : Nat) (i : Nat)
    (h1 : pos ≤ i)
    (h2 : i < pos + ((input.drop pos).takeWhile isWs).length) :
    isWs (input.getD i ' ') = true := by
  have hp := takeWhile_pred_getD isWs (input.drop pos) (i - pos) ' '
    (by omega)
  rw [getD_drop_add] at hp
  have heq : pos + (i - pos) = i := by omega
  rw [heq] at hp
  exact hp

/-- The tokenization loop establishes the stream invariant from any
starting position, given enough fuel. -/
lemma tokLoop_inv (input : List Char) :
    ∀ (fuel : Nat) (cur : Cursor),
      cur.offset ≤ input.length →
      input.length - cur.offset < fuel →
      StreamInv input cur.offset
        (tokLoop fuel cur (input.drop cur.offset)) := by
  intro fuel
  induction fuel with
  | zero =>
    intro cur h1 h2
    omega
  | succ fuel ih =>
    intro cur h1 h2
    have hcslen : (input.drop cur.offset).length =
        input.length - cur.offset := by
      simp [List.length_drop]
    obtain ⟨t, k, hnt, hspec⟩ :=
      (scan_spec (2 * (input.drop cur.offset).length + 1)).1 cur
        (input.drop cur.offset) (Nat.le_refl _)
    obtain ⟨hs1, hs2, hs3, hs4, hs5, hs6⟩ := hspec
    unfold tokLoop
    simp only [hnt]
    by_cases he : isEofKind t.kind = true
    · rw [if_pos he]
      obtain ⟨hte, hke, hwe⟩ := hs5 he
      have hpos : cur.offset + (input.drop cur.offset).length =
          input.length := by omega
      subst hte
      refine ⟨?_, ?_, ?_, ?_, ?_, ?_⟩
      · rw [hpos]
        simp
      · simp [List.countP_cons, Token.eof, Token.kind, isEofKind]
      · intro tt htt
        simp only [List.mem_singleton] at htt
        subst htt
        refine ⟨?_, ?_, ?_⟩ <;>
          simp [Token.eof, Token.span, Span.new] <;> omega
      · simp
      · intro i hi1 hi2
        right
        exact ws_skip_cov input cur.offset i hi1 (by omega)
      · intro tt htt s hks
        simp only [List.mem_singleton] at htt
        subst htt
        exact absurd hks (by simp [Token.eof, Token.kind])
    · rw [if_neg he]
      have hef : isEofKind t.kind = false := by
        cases hx : isEofKind t.kind
        · rfl
        · exact absurd hx he
      have hlt := hs6 hef
      have hk1 : 1 ≤ k := by omega
      have hoff : (advStr cur ((input.drop cur.offset).take k)).offset =
          cur.offset + k := by
        rw [advStr_offset, List.length_take]
        omega
      have hdd : (input.drop cur.offset).drop k =
          input.drop (cur.offset + k) := by
        rw [List.drop_drop]
      have hih := ih (advStr cur ((input.drop cur.offset).take k))
        (by rw [hoff]; omega) (by rw [hoff]; omega)
      rw [hoff] at hih
      rw [hdd]
      obtain ⟨g1, g2, g3, g4, g5, g6⟩ := hih
      refine ⟨?_, ?_, ?_, ?_, ?_, ?_⟩
      · cases hts : tokLoop fuel
            (advStr cur ((input.drop cur.offset).take k))
            (input.drop (cur.offset + k)) with
        | nil =>
          rw [hts] at g1
          exact Option.noConfusion g1
        | cons x xs =>
          rw [hts] at g1
          rw [List.getLast?_cons_cons]
          exact g1
      · rw [List.countP_cons_of_neg]
        · exact g2
        · simp [hef]
      · intro tt htt
        rcases List.mem_cons.mp htt with rfl | hmem
        · exact ⟨by omega, by omega, by omega⟩
        · have hg := g3 tt hmem
          exact ⟨by omega, hg.2.1, hg.2.2⟩
      · rw [List.pairwise_cons]
        refine ⟨?_, g4⟩
        intro b hb
        have hg := (g3 b hb).1
        omega
      · intro i hi1 hi2
        by_cases hik : i < cur.offset + k
        · by_cases hiw : i < cur.offset +
              ((input.drop cur.offset).takeWhile isWs).length
          · right
            exact ws_skip_cov input cur.offset i hi1 hiw
          · left
            exact ⟨t, List.mem_cons_self _ _, hef, by omega, by omega⟩
        · rcases g5 i (by omega) hi2 with ⟨tt, hmem, hcov⟩ | hws
          · exact Or.inl ⟨tt, List.mem_cons_of_mem _ hmem, hcov⟩
          · exact Or.inr hws
      · intro tt htt s hks
        rcases List.mem_cons.mp htt with rfl | hmem
        · have hnum := nextTok_number _ _ _ _ _ s hnt hks
          rw [hs3, hs4]
          have harith : cur.offset + k - (cur.offset +
              ((input.drop cur.offset).takeWhile isWs).length) =
              k - ((input.drop cur.offset).takeWhile isWs).length := by
            omega
          rw [harith]
          have hdd2 : (input.drop cur.offset).drop
              ((input.drop cur.offset).takeWhile isWs).length =
              input.drop (cur.offset +
                ((input.drop cur.offset).takeWhile isWs).length) := by
            rw [List.drop_drop]
          rw [← hdd2]
          exact hnum
        · exact g6 tt hmem s hks

/-! ### Claims about the modelled scanner -/

/-- C2: for every finite input, tokenization terminates (it is a total
function) and the produced stream contains exactly one end-of-input
token, which is the last token and is positioned at the offset
immediately after the last character of the input (zero-width span at
the input length). -/
theorem tokenize_terminates_unique_eof :
    ∀ source : String,
      (tokenize source).getLast? = some (Token.eof source.length) ∧
      (tokenize source).countP (fun t => isEofKind t.kind) = 1 := by
  intro source
  have h := tokLoop_inv source.data (source.data.length + 1) ⟨0, 0, 0⟩
    (by simp) (by omega)
  have h0 : (⟨0, 0, 0⟩ : Cursor).offset = 0 := rfl
  rw [h0, List.drop_zero] at h
  exact ⟨h.1, h.2.1⟩

/-- C3: operator scanning is maximal munch — `...` is one `DotDotDot`
token and `<=` is one `LessEqual` token; in general a three-character
operator match is always preferred, and a two-character match is
preferred whenever no three-character operator matches. -/
theorem maximal_munch_ops :
    tokenize "..." = [Token.new TokenKind.DotDotDot (Span.new 0 3 0 0),
      Token.eof 3] ∧
    tokenize "<=" = [Token.new TokenKind.LessEqual (Span.new 0 2 0 0),
      Token.eof 2] ∧
    (∀ (a b c : Char) (t : List Char) (k3 : TokenKind),
      op3 a b c = some k3 → opMatch (a :: b :: c :: t) = some (k3, 3)) ∧
    (∀ (a b c : Char) (t : List Char) (k2 : TokenKind),
      op3 a b c = none → op2 a b = some k2 →
      opMatch (a :: b :: c :: t) = some (k2, 2)) := by
  refine ⟨rfl, rfl, ?_, ?_⟩
  · intro a b c t k3 h3
    simp [opMatch, h3]
  · intro a b c t k2 h3 h2
    simp [opMatch, h3, h2]

/-- Witness for C3: longest match applied at the ellipsis operator. -/
theorem maximal_munch_ops_witness :
    opMatch ['.', '.', '.'] = some (TokenKind.DotDotDot, 3) :=
  maximal_munch_ops.2.2.1 '.' '.' '.' [] TokenKind.DotDotDot rfl

/-- C4: `Token::eof(p)` has kind `Eof` and a zero-width span with start
and end offsets both equal to `p`; and at end of input the scanner
returns the end-of-input token consuming nothing, so requesting the
next token again yields the same end-of-input token (idempotent
terminal state). -/
theorem eof_token_shape_idempotent :
    ∀ (p : Nat) (f : Nat) (cur : Cursor),
      (Token.eof p).kind = TokenKind.Eof ∧
      (Token.eof p).span.start = p ∧
      (Token.eof p).span.stop = p ∧
      nextTok (f+1) cur [] = some (Token.eof cur.offset, 0) := by
  intro p f cur
  exact ⟨rfl, rfl, rfl, rfl⟩

/-- C5: a character that starts no valid lexeme produces exactly one
`Unknown` token carrying that character with a one-character span, the
cursor advances by exactly one character, and the rest of the input is
scanned unaffected; concretely, the stream of "$a" is the unknown
dollar, the identifier, and the end-of-input token. -/
theorem unknown_char_recovery :
    (∀ (f : Nat) (cur : Cursor) (c : Char) (rest : List Char),
      isWs c = false → isIdentStart c = false → c.isDigit = false →
      (c == dquoteChar) = false → (c == squoteChar) = false →
      (c == backtickChar) = false → opMatch (c :: rest) = none →
      nextTok (f+1) cur (c :: rest) =
        some (Token.new (TokenKind.Unknown c)
          (Span.new cur.offset (cur.offset + 1) cur.line cur.column), 1)) ∧
    tokenize "$a" =
      [Token.new (TokenKind.Unknown '$') (Span.new 0 1 0 0),
       Token.new (TokenKind.Identifier "a") (Span.new 1 2 0 1),
       Token.eof 2] := by
  refine ⟨?_, rfl⟩
  intro f cur c rest hws hid hdig hdq hsq hbt hop
  have hw : ((c :: rest).takeWhile isWs).length = 0 := by
    simp [List.takeWhile_cons, hws]
  unfold nextTok
  simp only [hw, List.drop_zero, List.take_zero]
  rw [if_neg (by simp [hid]), if_neg (by simp [hdig]),
    if_neg (by simp [hdq, hsq]), if_neg (by simp [hbt])]
  simp only [hop]
  rfl

/-- Witness for C5: the unknown-character step at a dollar sign. -/
theorem unknown_char_recovery_witness :
    nextTok 1 ⟨0, 0, 0⟩ ['$', 'a'] =
      some (Token.new (TokenKind.Unknown '$') (Span.new 0 1 0 0), 1) :=
  unknown_char_recovery.1 0 ⟨0, 0, 0⟩ '$' ['a'] rfl rfl rfl rfl rfl rfl rfl

/-- C6: in every produced stream, spans are pairwise non-overlapping
(each token ends no later than the next starts), start offsets are
non-decreasing, spans are well-formed and bounded by the input length,
and every input position is either inside the span of a non-sentinel
token or holds a skipped whitespace character — so the spans together
with the skipped regions cover the input exactly once. -/
theorem tokenize_spans_partition :
    ∀ source : String,
      ((tokenize source).Pairwise (fun a b => a.span.stop ≤ b.span.start)) ∧
      (∀ t ∈ tokenize source, t.span.start ≤ t.span.stop ∧
        t.span.stop ≤ source.length) ∧
      ((tokenize source).Pairwise
        (fun a b => a.span.start ≤ b.span.start)) ∧
      (∀ i, i < source.length →
        (∃ t ∈ tokenize source, isEofKind t.kind = false ∧
          t.span.start ≤ i ∧ i < t.span.stop) ∨
        isWs (source.data.getD i ' ') = true) := by
  intro source
  have h := tokLoop_inv source.data (source.data.length + 1) ⟨0, 0, 0⟩
    (by simp) (by omega)
  have h0 : (⟨0, 0, 0⟩ : Cursor).offset = 0 := rfl
  rw [h0, List.drop_zero] at h
  obtain ⟨g1, g2, g3, g4, g5, g6⟩ := h
  refine ⟨g4, fun t ht => ⟨(g3 t ht).2.1, (g3 t ht).2.2⟩, ?_,
    fun i hi => g5 i (Nat.zero_le i) hi⟩
  refine List.Pairwise.imp_of_mem ?_ g4
  intro a b ha hb hr
  have := (g3 a ha).2.1
  omega

/-- Witness for C6: coverage applied at position 0 of a concrete
input. -/
theorem tokenize_spans_partition_witness :
    (∃ t ∈ tokenize "...", isEofKind t.kind = false ∧
      t.span.start ≤ 0 ∧ 0 < t.span.stop) ∨
    isWs (("..." : String).data.getD 0 ' ') = true :=
  (tokenize_spans_partition "...").2.2.2 0 (by decide)

/-- C7: every numeric-literal token in every produced stream carries,
as its string payload, exactly the substring of the source text covered
by its span — the raw matched text, not a parsed number. -/
theorem number_tokens_raw_text :
    ∀ (source : String) (t : Token) (s : String),
      t ∈ tokenize source → t.kind = TokenKind.Number s →
      s.data = (source.data.drop t.span.start).take
        (t.span.stop - t.span.start) := by
  intro source t s hmem hkind
  have h := tokLoop_inv source.data (source.data.length + 1) ⟨0, 0, 0⟩
    (by simp) (by omega)
  have h0 : (⟨0, 0, 0⟩ : Cursor).offset = 0 := rfl
  rw [h0, List.drop_zero] at h
  exact h.2.2.2.2.2 t hmem s hkind

/-- Witness for C7: the numeric literal of "12.5e3" carries its raw
text. -/
theorem number_tokens_raw_text_witness :
    ("12.5e3" : String).data =
      ((("12.5e3" : String).data.drop 0).take 6) := by
  have h := number_tokens_raw_text "12.5e3"
    (Token.new (TokenKind.Number "12.5e3") (Span.new 0 6 0 0)) "12.5e3"
    (by
      rw [show tokenize "12.5e3" =
        [Token.new (TokenKind.Number "12.5e3") (Span.new 0 6 0 0),
         Token.eof 6] from rfl]
      exact List.mem_cons_self _ _)
    rfl
  simpa using h

end TypedLua
